import Mathlib

/-!
Verification of the binfield_matrix GF(2) vector-matrix multiplication routines.

The source code (src/lib.rs) computes, for an input word `word : I` and a
matrix given as a slice of row words `mat : &[I]`, the fold

    mat.iter().fold(init, |accum, &row| {
        let bit = ((word & row).count_ones() & 1) as u8;
        accum << 1 | bit.into()
    })

with `init = O::zero()` for `matrix_mul` and `init = word.into()` (lossless
widening) for `matrix_mul_systematic`.

We model the fixed-width unsigned output type `O` as natural numbers below
`2 ^ wO`, where `wO` is the bit-width of `O`; the Rust shift `accum << 1`
discards bits shifted past the top, which the model renders as an explicit
`% 2 ^ wO`.  Input words of type `I` are naturals (a concrete `I` of width
`wI` supplies values below `2 ^ wI`); the `Into<O>` widening used by the
systematic variant is value-preserving, hence the identity on naturals.
-/

namespace BinfieldMatrix

/-- Fuel-indexed population count: with fuel `f + 1`, counts the low bit of
`n` and recurses on `n / 2`.  The fuel makes the recursion structural, so
concrete values reduce inside the kernel. -/
def count_ones_fuel : Nat → Nat → Nat
  | 0, _ => 0
  | f + 1, n => if n = 0 then 0 else n % 2 + count_ones_fuel f (n / 2)

/-- Population count (number of set bits) of a natural number, mirroring the
Rust `count_ones` method on unsigned integers.  `n` itself is always enough
fuel since the binary length of `n` is at most `n`. -/
def count_ones (n : Nat) : Nat := count_ones_fuel n n

/-- The GF(2) dot-product bit of `word` with one matrix row:
`((word & row).count_ones() & 1)` from the source. -/
def dot_bit (word row : Nat) : Nat :=
  count_ones (word &&& row) &&& 1

/-- One step of the source fold `accum << 1 | bit`, carried out in an output
word of bit-width `wO`: the left shift drops any bit moved past position
`wO - 1`. -/
def accum_step (wO word accum row : Nat) : Nat :=
  (accum <<< 1) % 2 ^ wO ||| dot_bit word row

/-- The private routine `accum_rows` of the source: starting from `init`,
fold every row of `mat`, shifting each row's dot-product bit into the least
significant position of the accumulator. -/
def accum_rows (wO word init : Nat) (mat : List Nat) : Nat :=
  mat.foldl (fun accum row => accum_step wO word accum row) init

/-- Public entry point `matrix_mul`: the fold started from `O::zero()`. -/
def matrix_mul (wO word : Nat) (mat : List Nat) : Nat :=
  accum_rows wO word 0 mat

/-- Public entry point `matrix_mul_systematic`: the fold started from
`word.into()`, the value-preserving widening of `word` into `O`. -/
def matrix_mul_systematic (wO word : Nat) (mat : List Nat) : Nat :=
  accum_rows wO word word mat

/-- Specification-side value: the per-row parity bits of `mat`, concatenated
most-significant-row-first onto the binary digits of `init`, read as an
unbounded natural number (no width truncation). -/
def concat_bits (word init : Nat) (mat : List Nat) : Nat :=
  mat.foldl (fun a row => 2 * a + dot_bit word row) init

/-- Specification-side fold, following the packing rule stated in the spec:
start from the given accumulator and, for each row in order, set
`accumulator = (accumulator shifted left by 1) OR bit`, where `bit` is the
parity (popcount modulo 2) of `word AND row`, and the shift stays inside a
word of width `wO`. -/
def shift_insert_fold (wO word init : Nat) (mat : List Nat) : Nat :=
  mat.foldl (fun accum row =>
    (accum <<< 1) % 2 ^ wO ||| count_ones (word &&& row) % 2) init

/-! ### Basic facts about `count_ones` and `dot_bit` -/

theorem count_ones_fuel_stable :
    ∀ f g n, n ≤ f → n ≤ g → count_ones_fuel f n = count_ones_fuel g n := by
  intro f
  induction f with
  | zero =>
    intro g n hf _
    interval_cases n
    cases g <;> simp [count_ones_fuel]
  | succ f ih =>
    intro g n hf hg
    by_cases hn : n = 0
    · subst hn
      cases g <;> simp [count_ones_fuel]
    · have hg' : 0 < g := lt_of_lt_of_le (Nat.pos_of_ne_zero hn) hg
      obtain ⟨g', rfl⟩ : ∃ g', g = g' + 1 := ⟨g - 1, by omega⟩
      simp only [count_ones_fuel, hn, if_false]
      have hhalf : n / 2 < n := Nat.div_lt_self (Nat.pos_of_ne_zero hn) one_lt_two
      rw [ih g' (n / 2) (by omega) (by omega)]

theorem count_ones_zero : count_ones 0 = 0 := rfl

theorem count_ones_rec (n : Nat) (hn : n ≠ 0) :
    count_ones n = n % 2 + count_ones (n / 2) := by
  have hpos : 0 < n := Nat.pos_of_ne_zero hn
  obtain ⟨m, rfl⟩ : ∃ m, n = m + 1 := ⟨n - 1, by omega⟩
  show count_ones_fuel (m + 1) (m + 1) = (m + 1) % 2 + count_ones ((m + 1) / 2)
  have hhalf : (m + 1) / 2 < m + 1 := Nat.div_lt_self hpos one_lt_two
  simp only [count_ones_fuel, hn, if_false]
  rw [count_ones_fuel_stable m ((m + 1) / 2) ((m + 1) / 2) (by omega) (le_refl _)]
  rfl

theorem dot_bit_eq_mod (word row : Nat) :
    dot_bit word row = count_ones (word &&& row) % 2 := by
  unfold dot_bit
  exact Nat.and_one_is_mod _

theorem dot_bit_lt_two (word row : Nat) : dot_bit word row < 2 := by
  rw [dot_bit_eq_mod]
  exact Nat.mod_lt _ (by omega)

/-! ### The fold as a truncated concatenation -/

theorem accum_step_eq (wO word accum row : Nat) (h : 0 < wO) :
    accum_step wO word accum row = (2 * accum + dot_bit word row) % 2 ^ wO := by
  obtain ⟨w, rfl⟩ : ∃ w, wO = w + 1 := ⟨wO - 1, by omega⟩
  have hb := dot_bit_lt_two word row
  have hm : accum % 2 ^ w < 2 ^ w := Nat.mod_lt _ (Nat.two_pow_pos w)
  unfold accum_step
  rw [Nat.shiftLeft_eq, pow_one]
  have hpow : 2 ^ (w + 1) = 2 * 2 ^ w := by ring
  have hmod : accum * 2 % 2 ^ (w + 1) = 2 * (accum % 2 ^ w) := by
    rw [hpow, Nat.mul_comm accum 2, Nat.mul_mod_mul_left]
  rw [hmod]
  have hor := (Nat.mul_add_lt_is_or
    (show dot_bit word row < 2 ^ 1 by simpa using hb) (accum % 2 ^ w)).symm
  rw [pow_one] at hor
  rw [hor]
  rw [Nat.add_mod, hpow, Nat.mul_mod_mul_left,
    Nat.mod_eq_of_lt (show dot_bit word row < 2 * 2 ^ w by omega),
    Nat.mod_eq_of_lt (show 2 * (accum % 2 ^ w) + dot_bit word row < 2 * 2 ^ w by omega)]

theorem accum_rows_eq_concat (wO word : Nat) (h : 0 < wO) :
    ∀ (mat : List Nat) (init : Nat),
      accum_rows wO word (init % 2 ^ wO) mat = concat_bits word init mat % 2 ^ wO := by
  intro mat
  induction mat with
  | nil => intro init; rfl
  | cons row t ih =>
    intro init
    show accum_rows wO word (accum_step wO word (init % 2 ^ wO) row) t
        = concat_bits word (2 * init + dot_bit word row) t % 2 ^ wO
    rw [accum_step_eq _ _ _ _ h]
    have hmm : (2 * (init % 2 ^ wO) + dot_bit word row) % 2 ^ wO
        = (2 * init + dot_bit word row) % 2 ^ wO := by
      conv_lhs => rw [Nat.add_mod, Nat.mul_mod, Nat.mod_mod]
      conv_rhs => rw [Nat.add_mod, Nat.mul_mod]
    rw [hmm]
    exact ih (2 * init + dot_bit word row)

theorem matrix_mul_eq_concat (wO word : Nat) (mat : List Nat) (h : 0 < wO) :
    matrix_mul wO word mat = concat_bits word 0 mat % 2 ^ wO := by
  have h0 : (0 : Nat) = 0 % 2 ^ wO := (Nat.zero_mod _).symm
  unfold matrix_mul
  rw [show (0 : Nat) = 0 % 2 ^ wO from h0]
  exact accum_rows_eq_concat wO word h mat 0

theorem matrix_mul_systematic_eq_concat (wO word : Nat) (mat : List Nat)
    (h : 0 < wO) (hw : word < 2 ^ wO) :
    matrix_mul_systematic wO word mat = concat_bits word word mat % 2 ^ wO := by
  have hkey := accum_rows_eq_concat wO word h mat word
  rw [Nat.mod_eq_of_lt hw] at hkey
  exact hkey

/-! ### Arithmetic structure of the untruncated concatenation -/

theorem concat_bits_decomp (word : Nat) :
    ∀ (mat : List Nat) (init : Nat),
      concat_bits word init mat = init * 2 ^ mat.length + concat_bits word 0 mat := by
  intro mat
  induction mat with
  | nil => intro init; simp [concat_bits]
  | cons row t ih =>
    intro init
    show concat_bits word (2 * init + dot_bit word row) t
        = init * 2 ^ (t.length + 1) + concat_bits word (2 * 0 + dot_bit word row) t
    rw [ih (2 * init + dot_bit word row), ih (2 * 0 + dot_bit word row)]
    ring

theorem concat_bits_lt (word : Nat) :
    ∀ mat : List Nat, concat_bits word 0 mat < 2 ^ mat.length := by
  intro mat
  induction mat with
  | nil => simp [concat_bits]
  | cons row t ih =>
    show concat_bits word (2 * 0 + dot_bit word row) t < 2 ^ (t.length + 1)
    rw [concat_bits_decomp word t (2 * 0 + dot_bit word row)]
    have hb := dot_bit_lt_two word row
    have hp := Nat.two_pow_pos t.length
    have : (2 * 0 + dot_bit word row) * 2 ^ t.length ≤ 1 * 2 ^ t.length :=
      Nat.mul_le_mul_right _ (by omega)
    calc (2 * 0 + dot_bit word row) * 2 ^ t.length + concat_bits word 0 t
        < (2 * 0 + dot_bit word row) * 2 ^ t.length + 2 ^ t.length := by omega
      _ ≤ 2 ^ (t.length + 1) := by
          rw [pow_succ]
          omega

theorem testBit_concat_bits (word : Nat) :
    ∀ (mat : List Nat) (i : Nat), i < mat.length →
      Nat.testBit (concat_bits word 0 mat) i
        = decide (dot_bit word (mat.getD (mat.length - 1 - i) 0) = 1) := by
  intro mat
  induction mat with
  | nil => intro i hi; simp at hi
  | cons row t ih =>
    intro i hi
    show Nat.testBit (concat_bits word (2 * 0 + dot_bit word row) t) i = _
    rw [concat_bits_decomp word t (2 * 0 + dot_bit word row),
      Nat.mul_comm (2 * 0 + dot_bit word row) (2 ^ t.length),
      Nat.testBit_mul_pow_two_add _ (concat_bits_lt word t) i]
    by_cases hit : i < t.length
    · rw [if_pos hit, ih i hit]
      have hidx : (row :: t).getD ((row :: t).length - 1 - i) 0
          = t.getD (t.length - 1 - i) 0 := by
        have h1 : (row :: t).length - 1 - i = (t.length - 1 - i) + 1 := by
          simp only [List.length_cons]
          omega
        rw [h1]
        rfl
      rw [hidx]
    · have hieq : i = t.length := by
        simp only [List.length_cons] at hi
        omega
      rw [if_neg hit, hieq, Nat.sub_self]
      have hb := dot_bit_lt_two word row
      have hidx : (row :: t).getD ((row :: t).length - 1 - t.length) 0 = row := by
        simp only [List.length_cons]
        rw [show t.length + 1 - 1 - t.length = 0 by omega]
        rfl
      rw [hidx, Nat.testBit_zero]
      have hmod : (2 * 0 + dot_bit word row) % 2 = dot_bit word row := by
        omega
      rw [hmod]

/-! ### Claim theorems -/

/-- C1 counterexample: the claim quantifies over every row count N and bit
index i < N with no bound from the output width.  Instantiated at the 8-bit
output type (wO = 8) with 9 rows, word 1, and i = 8 — a bit index below the
row count — bit 8 of the product is 0 while the parity of
popcount(1 AND rows[9-1-8]) = popcount(1 AND 1) is 1. -/
theorem claim_c1_counterexample :
    8 < ([1, 0, 0, 0, 0, 0, 0, 0, 0] : List Nat).length ∧
    matrix_mul 8 1 [1, 0, 0, 0, 0, 0, 0, 0, 0] >>> 8 % 2
      ≠ count_ones (1 &&& ([1, 0, 0, 0, 0, 0, 0, 0, 0] : List Nat).getD (9 - 1 - 8) 0) % 2 := by
  constructor
  · decide
  · decide

/-- C1 (amended with the bound i < wO forced by the counterexample): for
every word, row list and bit index i below both the row count and the output
bit-width, bit i (0-indexed from the LSB) of matrix_mul equals the parity of
popcount(word AND rows[N-1-i]). -/
theorem claim_c1_amended_bit_of_product (wO word : Nat) (mat : List Nat) (i : Nat)
    (h1 : i < mat.length) (h2 : i < wO) :
    matrix_mul wO word mat >>> i % 2
      = count_ones (word &&& mat.getD (mat.length - 1 - i) 0) % 2 := by
  have hpos : 0 < wO := by omega
  have htb : Nat.testBit (matrix_mul wO word mat) i
      = decide (dot_bit word (mat.getD (mat.length - 1 - i) 0) = 1) := by
    rw [matrix_mul_eq_concat wO word mat hpos, Nat.testBit_mod_two_pow,
      decide_eq_true h2, Bool.true_and]
    exact testBit_concat_bits word mat i h1
  rw [← Nat.decide_shiftRight_mod_two_eq_one] at htb
  have hb := dot_bit_lt_two word (mat.getD (mat.length - 1 - i) 0)
  have hx : matrix_mul wO word mat >>> i % 2 < 2 := Nat.mod_lt _ (by omega)
  rw [← dot_bit_eq_mod]
  simp only [decide_eq_decide] at htb
  omega

/-- C1 amended witness: at wO = 8, word = 1, the single row [1] and i = 0,
bit 0 of the product is the parity of popcount(1 AND 1) = 1. -/
theorem claim_c1_amended_witness :
    0 < ([1] : List Nat).length ∧ 0 < 8 ∧
    matrix_mul 8 1 [1] >>> 0 % 2 = count_ones (1 &&& ([1] : List Nat).getD (1 - 1 - 0) 0) % 2 :=
  ⟨by decide, by decide, claim_c1_amended_bit_of_product 8 1 [1] 0 (by decide) (by decide)⟩

/-- C9: the doc-example of the crate, at the 32-bit instantiation used
there: multiplying word 0b1010 by the six-row matrix yields the six per-row
parity bits packed MSB-first, 0b011010. -/
theorem claim_c9_concrete_product :
    matrix_mul 32 0b1010 [0b1111, 0b0010, 0b1000, 0b0101, 0b0010, 0b1010] = 0b011010 := by
  decide

/-- C3: matrix_mul and matrix_mul_systematic are the same shift-and-insert
fold over the rows (the spec's packing rule), instantiated only with
different initial accumulators: zero for the product, the widened input word
for the systematic variant. -/
theorem claim_c3_shared_fold (wO word : Nat) (mat : List Nat) :
    matrix_mul wO word mat = shift_insert_fold wO word 0 mat ∧
    matrix_mul_systematic wO word mat = shift_insert_fold wO word word mat := by
  constructor <;>
    simp only [matrix_mul, matrix_mul_systematic, accum_rows, accum_step,
      shift_insert_fold, dot_bit_eq_mod]

/-- C6: with at most wO rows, no truncation happens: the product is exactly
the untruncated MSB-first concatenation of the parity bits, and in
particular is below 2 ^ N, so every bit above the low N bits is zero. -/
theorem claim_c6_product_lt_two_pow_rows (wO word : Nat) (mat : List Nat)
    (h : mat.length ≤ wO) :
    matrix_mul wO word mat = concat_bits word 0 mat ∧
    matrix_mul wO word mat < 2 ^ mat.length := by
  by_cases hpos : 0 < wO
  · have hlt := concat_bits_lt word mat
    have hlt' : concat_bits word 0 mat < 2 ^ wO :=
      lt_of_lt_of_le hlt (Nat.pow_le_pow_right (by omega) h)
    rw [matrix_mul_eq_concat wO word mat hpos, Nat.mod_eq_of_lt hlt']
    exact ⟨rfl, hlt⟩
  · have hw0 : wO = 0 := by omega
    have hm : mat = [] := List.length_eq_zero.mp (by omega)
    subst hm
    exact ⟨rfl, by simp [matrix_mul, accum_rows, concat_bits]⟩

/-- C6 witness: a concrete instance with wO = 8 and one row. -/
theorem claim_c6_witness :
    ([3] : List Nat).length ≤ 8 ∧
    (matrix_mul 8 5 [3] = concat_bits 5 0 [3] ∧
      matrix_mul 8 5 [3] < 2 ^ ([3] : List Nat).length) :=
  ⟨by decide, claim_c6_product_lt_two_pow_rows 8 5 [3] (by decide)⟩

theorem mul_pow_add_lt (a b m n : Nat) (ha : a < 2 ^ m) (hb : b < 2 ^ n) :
    a * 2 ^ n + b < 2 ^ (m + n) := by
  have h1 : a * 2 ^ n + b < (a + 1) * 2 ^ n := by
    rw [Nat.succ_mul]
    omega
  have h2 : (a + 1) * 2 ^ n ≤ 2 ^ m * 2 ^ n := Nat.mul_le_mul_right _ (by omega)
  rw [← pow_add] at h2
  omega

theorem mul_pow_add_eq_lor (a b n : Nat) (hb : b < 2 ^ n) :
    a * 2 ^ n + b = a <<< n ||| b := by
  rw [Nat.shiftLeft_eq, Nat.mul_comm a (2 ^ n)]
  exact Nat.mul_add_lt_is_or hb a

/-- C5: silent truncation on row-count overflow.  For every word, whenever
the row count exceeds the output width wO, the product is the MSB-first
concatenation of all N parity bits, read as an unbounded natural number and
reduced modulo 2 ^ wO; and whenever the row count exceeds wO - wI (with the
word an I value and the widening into O lossless), the systematic result is
likewise the concatenation of the input word's bits with all N parity bits,
reduced modulo 2 ^ wO.  No error value or other signal exists: the reduced
value is returned as is. -/
theorem claim_c5_truncation (wI wO word : Nat) (mat : List Nat) (hpos : 0 < wO) :
    (wO < mat.length →
      matrix_mul wO word mat = concat_bits word 0 mat % 2 ^ wO) ∧
    (word < 2 ^ wI → wI ≤ wO → wO - wI < mat.length →
      matrix_mul_systematic wO word mat = concat_bits word word mat % 2 ^ wO) := by
  constructor
  · intro _
    exact matrix_mul_eq_concat wO word mat hpos
  · intro hv hIle _
    exact matrix_mul_systematic_eq_concat wO word mat hpos
      (lt_of_lt_of_le hv (Nat.pow_le_pow_right (by omega) hIle))

/-- C5 witness: three instances at wO = 8.  Word 5 with nine rows exercises
both conjuncts (N = 9 beyond the eight output bits).  Word 10 with the
crate's six doc-example rows and wI = 4 exercises the systematic conjunct in
the regime wO - wI < N ≤ wO: the untruncated concatenation is 666, and the
returned value is 666 mod 256 = 154. -/
theorem claim_c5_witness :
    (0 < 8 ∧ 8 < ([1, 2, 3, 4, 5, 6, 7, 8, 9] : List Nat).length ∧
      matrix_mul 8 5 [1, 2, 3, 4, 5, 6, 7, 8, 9]
        = concat_bits 5 0 [1, 2, 3, 4, 5, 6, 7, 8, 9] % 2 ^ 8) ∧
    (5 < 2 ^ 4 ∧ 4 ≤ 8 ∧ 8 - 4 < ([1, 2, 3, 4, 5, 6, 7, 8, 9] : List Nat).length ∧
      matrix_mul_systematic 8 5 [1, 2, 3, 4, 5, 6, 7, 8, 9]
        = concat_bits 5 5 [1, 2, 3, 4, 5, 6, 7, 8, 9] % 2 ^ 8) ∧
    (10 < 2 ^ 4 ∧ 4 ≤ 8 ∧
      8 - 4 < ([0b1111, 0b0010, 0b1000, 0b0101, 0b0010, 0b1010] : List Nat).length ∧
      concat_bits 10 10 [0b1111, 0b0010, 0b1000, 0b0101, 0b0010, 0b1010] = 666 ∧
      matrix_mul_systematic 8 10 [0b1111, 0b0010, 0b1000, 0b0101, 0b0010, 0b1010]
        = concat_bits 10 10 [0b1111, 0b0010, 0b1000, 0b0101, 0b0010, 0b1010] % 2 ^ 8) :=
  ⟨⟨by decide, by decide,
      (claim_c5_truncation 4 8 5 [1, 2, 3, 4, 5, 6, 7, 8, 9] (by decide)).1 (by decide)⟩,
    ⟨by decide, by decide, by decide,
      (claim_c5_truncation 4 8 5 [1, 2, 3, 4, 5, 6, 7, 8, 9] (by decide)).2
        (by decide) (by decide) (by decide)⟩,
    ⟨by decide, by decide, by decide, by decide,
      (claim_c5_truncation 4 8 10 [0b1111, 0b0010, 0b1000, 0b0101, 0b0010, 0b1010]
          (by decide)).2 (by decide) (by decide) (by decide)⟩⟩

/-- C2: systematic = (widened word shifted left by the row count) OR product,
whenever the output type has room, i.e. the word fits in wI bits and the row
count is at most wO - wI.  The widening of the word into the output type is
value-preserving, so it is the identity in the natural-number model. -/
theorem claim_c2_systematic_decomposition (wI wO word : Nat) (mat : List Nat)
    (hv : word < 2 ^ wI) (hN : mat.length ≤ wO - wI) :
    matrix_mul_systematic wO word mat
      = word <<< mat.length ||| matrix_mul wO word mat := by
  by_cases hnil : mat = []
  · subst hnil
    show word = word <<< 0 ||| 0
    rw [Nat.shiftLeft_zero, Nat.or_zero]
  · have hlen : 0 < mat.length := List.length_pos.mpr hnil
    have hpos : 0 < wO := by omega
    have hIlt : wI < wO := by omega
    have hw : word < 2 ^ wO :=
      lt_of_lt_of_le hv (Nat.pow_le_pow_right (by omega) (by omega))
    rw [matrix_mul_systematic_eq_concat wO word mat hpos hw,
      matrix_mul_eq_concat wO word mat hpos,
      concat_bits_decomp word mat word]
    have hC := concat_bits_lt word mat
    have hCw : concat_bits word 0 mat < 2 ^ wO :=
      lt_of_lt_of_le hC (Nat.pow_le_pow_right (by omega) (by omega))
    have hsum : word * 2 ^ mat.length + concat_bits word 0 mat < 2 ^ wO := by
      have h1 := mul_pow_add_lt word (concat_bits word 0 mat) wI mat.length hv hC
      have h2 : 2 ^ (wI + mat.length) ≤ 2 ^ wO :=
        Nat.pow_le_pow_right (by omega) (by omega)
      omega
    rw [Nat.mod_eq_of_lt hsum, Nat.mod_eq_of_lt hCw]
    exact mul_pow_add_eq_lor word (concat_bits word 0 mat) mat.length hC

/-- C2 witness: the crate's doc example with wI = 4 and wO = 32: the
systematic codeword 0b1010011010 is the word 0b1010 shifted past the six
parity bits, OR-ed with the product. -/
theorem claim_c2_witness :
    (0b1010 : Nat) < 2 ^ 4 ∧
    ([0b1111, 0b0010, 0b1000, 0b0101, 0b0010, 0b1010] : List Nat).length ≤ 32 - 4 ∧
    matrix_mul_systematic 32 0b1010 [0b1111, 0b0010, 0b1000, 0b0101, 0b0010, 0b1010]
      = 0b1010 <<< ([0b1111, 0b0010, 0b1000, 0b0101, 0b0010, 0b1010] : List Nat).length
        ||| matrix_mul 32 0b1010 [0b1111, 0b0010, 0b1000, 0b0101, 0b0010, 0b1010] :=
  ⟨by decide, by decide,
    claim_c2_systematic_decomposition 4 32 0b1010
      [0b1111, 0b0010, 0b1000, 0b0101, 0b0010, 0b1010] (by decide) (by decide)⟩

/-- C10: concatenation homomorphism.  When the combined row count fits in
the output width, the product over appended row lists is the product over
the first part, shifted left past the second part's bits, OR-ed with the
product over the second part. -/
theorem claim_c10_append_homomorphism (wO word : Nat) (r1 r2 : List Nat)
    (h : r1.length + r2.length ≤ wO) :
    matrix_mul wO word (r1 ++ r2)
      = matrix_mul wO word r1 <<< r2.length ||| matrix_mul wO word r2 := by
  by_cases hpos : 0 < wO
  · have hA := concat_bits_lt word r1
    have hB := concat_bits_lt word r2
    have happ : concat_bits word 0 (r1 ++ r2)
        = concat_bits word 0 r1 * 2 ^ r2.length + concat_bits word 0 r2 := by
      unfold concat_bits
      rw [List.foldl_append]
      exact concat_bits_decomp word r2 (concat_bits word 0 r1)
    have hsum := mul_pow_add_lt (concat_bits word 0 r1) (concat_bits word 0 r2)
      r1.length r2.length hA hB
    have hle : 2 ^ (r1.length + r2.length) ≤ 2 ^ wO :=
      Nat.pow_le_pow_right (by omega) h
    rw [matrix_mul_eq_concat wO word (r1 ++ r2) hpos,
      matrix_mul_eq_concat wO word r1 hpos,
      matrix_mul_eq_concat wO word r2 hpos, happ,
      Nat.mod_eq_of_lt (show concat_bits word 0 r1 * 2 ^ r2.length
        + concat_bits word 0 r2 < 2 ^ wO by omega),
      Nat.mod_eq_of_lt (show concat_bits word 0 r1 < 2 ^ wO by
        have := Nat.pow_le_pow_right (show 1 ≤ 2 by omega)
          (show r1.length ≤ wO by omega)
        omega),
      Nat.mod_eq_of_lt (show concat_bits word 0 r2 < 2 ^ wO by
        have := Nat.pow_le_pow_right (show 1 ≤ 2 by omega)
          (show r2.length ≤ wO by omega)
        omega)]
    exact mul_pow_add_eq_lor _ _ _ hB
  · have hw0 : wO = 0 := by omega
    have h1 : r1 = [] := List.length_eq_zero.mp (by omega)
    have h2 : r2 = [] := List.length_eq_zero.mp (by omega)
    subst h1
    subst h2
    simp [matrix_mul, accum_rows]

/-- C10 witness: the doc example's six rows split three and three, at
wO = 32. -/
theorem claim_c10_witness :
    ([0b1111, 0b0010, 0b1000] : List Nat).length
        + ([0b0101, 0b0010, 0b1010] : List Nat).length ≤ 32 ∧
    matrix_mul 32 0b1010 ([0b1111, 0b0010, 0b1000] ++ [0b0101, 0b0010, 0b1010])
      = matrix_mul 32 0b1010 [0b1111, 0b0010, 0b1000]
          <<< ([0b0101, 0b0010, 0b1010] : List Nat).length
        ||| matrix_mul 32 0b1010 [0b0101, 0b0010, 0b1010] :=
  ⟨by decide,
    claim_c10_append_homomorphism 32 0b1010 [0b1111, 0b0010, 0b1000]
      [0b0101, 0b0010, 0b1010] (by decide)⟩

theorem accum_rows_congr_of_land_eq (wO v1 v2 : Nat) :
    ∀ (mat : List Nat),
      (∀ j, j < mat.length → v1 &&& mat.getD j 0 = v2 &&& mat.getD j 0) →
      ∀ init, accum_rows wO v1 init mat = accum_rows wO v2 init mat := by
  intro mat
  induction mat with
  | nil => intro _ init; rfl
  | cons row t ih =>
    intro h init
    have h0 : v1 &&& row = v2 &&& row := h 0 (by simp)
    have hstep : accum_step wO v1 init row = accum_step wO v2 init row := by
      unfold accum_step dot_bit
      rw [h0]
    show accum_rows wO v1 (accum_step wO v1 init row) t
        = accum_rows wO v2 (accum_step wO v2 init row) t
    rw [hstep]
    exact ih (fun j hj => h (j + 1) (by simpa using Nat.succ_lt_succ hj)) _

/-- C8: noninterference through masking — the product depends on the input
word only through its AND with each row.  If two words agree under every
row's mask, the products coincide. -/
theorem claim_c8_noninterference (wO v1 v2 : Nat) (mat : List Nat)
    (h : ∀ j, j < mat.length → v1 &&& mat.getD j 0 = v2 &&& mat.getD j 0) :
    matrix_mul wO v1 mat = matrix_mul wO v2 mat :=
  accum_rows_congr_of_land_eq wO v1 v2 mat h 0

/-- C8 witness: 10 and 26 differ in a bit outside the mask 15, so the
products over the one-row matrix [15] agree. -/
theorem claim_c8_witness :
    (∀ j, j < ([15] : List Nat).length →
      10 &&& ([15] : List Nat).getD j 0 = 26 &&& ([15] : List Nat).getD j 0) ∧
    matrix_mul 8 10 [15] = matrix_mul 8 26 [15] :=
  ⟨by decide, claim_c8_noninterference 8 10 26 [15] (by decide)⟩

theorem accum_rows_lt_two_pow (wO word : Nat) (hpos : 0 < wO) :
    ∀ (mat : List Nat) (init : Nat), init < 2 ^ wO →
      accum_rows wO word init mat < 2 ^ wO := by
  intro mat
  induction mat with
  | nil => intro init h; exact h
  | cons row t ih =>
    intro init h
    show accum_rows wO word (accum_step wO word init row) t < 2 ^ wO
    exact ih _ (by
      rw [accum_step_eq wO word init row hpos]
      exact Nat.mod_lt _ (Nat.two_pow_pos wO))

/-- C7: totality.  Both entry points are total functions of their inputs —
the model returns a plain value for every word and every row list, with no
error case — and for every input (the empty matrix, the all-zero word, and
row counts beyond the output width included) the returned value fits the
output type: it stays below 2 ^ wO. -/
theorem claim_c7_total_in_range (wO word : Nat) (mat : List Nat)
    (hpos : 0 < wO) (hw : word < 2 ^ wO) :
    matrix_mul wO word mat < 2 ^ wO ∧
    matrix_mul_systematic wO word mat < 2 ^ wO :=
  ⟨accum_rows_lt_two_pow wO word hpos mat 0 (Nat.two_pow_pos wO),
    accum_rows_lt_two_pow wO word hpos mat word hw⟩

/-- C7 witness: wO = 8, word 0, a matrix of 10 rows — more rows than output
bits — still yields in-range values for both entry points. -/
theorem claim_c7_witness :
    0 < 8 ∧ (0 : Nat) < 2 ^ 8 ∧
    (matrix_mul 8 0 [1, 2, 3, 4, 5, 6, 7, 8, 9, 10] < 2 ^ 8 ∧
      matrix_mul_systematic 8 0 [1, 2, 3, 4, 5, 6, 7, 8, 9, 10] < 2 ^ 8) :=
  ⟨by decide, by decide,
    claim_c7_total_in_range 8 0 [1, 2, 3, 4, 5, 6, 7, 8, 9, 10]
      (by decide) (by decide)⟩

/-! ### GF(2) linearity -/

theorem count_ones_xor_parity :
    ∀ x y : Nat, count_ones (x ^^^ y) % 2 = (count_ones x + count_ones y) % 2 := by
  intro x
  induction x using Nat.div2Induction with
  | ind x ih =>
    intro y
    by_cases hx : x = 0
    · subst hx
      rw [Nat.zero_xor, count_ones_zero]
      omega
    · by_cases hy : y = 0
      · subst hy
        rw [Nat.xor_zero, count_ones_zero]
        omega
      · have hmod := Nat.xor_mod_two_eq_one (a := x) (b := y)
        have hih := ih (Nat.pos_of_ne_zero hx) (y / 2)
        rw [count_ones_rec x hx, count_ones_rec y hy]
        by_cases hxy : x ^^^ y = 0
        · rw [hxy, count_ones_zero]
          have hd0 : x / 2 ^^^ y / 2 = 0 := by
            rw [← Nat.xor_div_two, hxy]
          rw [hd0, count_ones_zero] at hih
          omega
        · rw [count_ones_rec (x ^^^ y) hxy]
          rw [← Nat.xor_div_two] at hih
          omega

theorem dot_bit_xor (v1 v2 row : Nat) :
    dot_bit (v1 ^^^ v2) row = dot_bit v1 row ^^^ dot_bit v2 row := by
  rw [dot_bit_eq_mod, dot_bit_eq_mod, dot_bit_eq_mod, Nat.and_xor_distrib_right,
    count_ones_xor_parity]
  rcases Nat.mod_two_eq_zero_or_one (count_ones (v1 &&& row)) with h1 | h1 <;>
    rcases Nat.mod_two_eq_zero_or_one (count_ones (v2 &&& row)) with h2 | h2 <;>
    rw [h1, h2] <;>
    simp only [show (0 : Nat) ^^^ 0 = 0 from by decide,
      show (0 : Nat) ^^^ 1 = 1 from by decide,
      show (1 : Nat) ^^^ 0 = 1 from by decide,
      show (1 : Nat) ^^^ 1 = 0 from by decide] <;>
    omega

theorem shiftLeft_one_xor (x y : Nat) :
    (x ^^^ y) <<< 1 = x <<< 1 ^^^ y <<< 1 := by
  apply Nat.eq_of_testBit_eq
  intro j
  simp only [Nat.testBit_shiftLeft, Nat.testBit_xor]
  rw [Bool.and_xor_distrib_left]

theorem mod_two_pow_xor (x y n : Nat) :
    (x ^^^ y) % 2 ^ n = x % 2 ^ n ^^^ y % 2 ^ n := by
  apply Nat.eq_of_testBit_eq
  intro j
  simp only [Nat.testBit_mod_two_pow, Nat.testBit_xor]
  rw [Bool.and_xor_distrib_left]

theorem shift_mod_two_pow_even (wO a : Nat) : (a <<< 1) % 2 ^ wO % 2 = 0 := by
  cases wO with
  | zero => simp [Nat.mod_one]
  | succ w =>
    rw [Nat.shiftLeft_eq, pow_one, pow_succ, Nat.mul_mod_mul_right]
    exact Nat.mul_mod_left _ 2

theorem even_lor_bit (x b : Nat) (hx : x % 2 = 0) (hb : b < 2) :
    x ||| b = x + b := by
  have hxx : 2 ^ 1 * (x / 2) = x := by
    rw [pow_one]
    omega
  have h := Nat.mul_add_lt_is_or (show b < 2 ^ 1 by simpa using hb) (x / 2)
  rw [hxx] at h
  exact h.symm

theorem even_add_bit_xor (x y b1 b2 : Nat) (hx : x % 2 = 0) (hy : y % 2 = 0)
    (h1 : b1 < 2) (h2 : b2 < 2) :
    (x + b1) ^^^ (y + b2) = (x ^^^ y) + (b1 ^^^ b2) := by
  have h1' : b1 < 2 ^ 1 := by simpa using h1
  have h2' : b2 < 2 ^ 1 := by simpa using h2
  have h12 : b1 ^^^ b2 < 2 ^ 1 := Nat.xor_lt_two_pow h1' h2'
  have hxe : x + b1 = 2 ^ 1 * (x / 2) + b1 := by
    rw [pow_one]
    omega
  have hye : y + b2 = 2 ^ 1 * (y / 2) + b2 := by
    rw [pow_one]
    omega
  have hxy : (x ^^^ y) % 2 = 0 := by
    have := Nat.xor_mod_two_eq_one (a := x) (b := y)
    omega
  have hxye : (x ^^^ y) + (b1 ^^^ b2) = 2 ^ 1 * ((x / 2) ^^^ (y / 2)) + (b1 ^^^ b2) := by
    rw [pow_one, ← Nat.xor_div_two]
    omega
  rw [hxe, hye, hxye]
  apply Nat.eq_of_testBit_eq
  intro j
  rw [Nat.testBit_xor, Nat.testBit_mul_pow_two_add _ h1' j,
    Nat.testBit_mul_pow_two_add _ h2' j, Nat.testBit_mul_pow_two_add _ h12 j]
  by_cases hj : j < 1
  · simp only [if_pos hj, Nat.testBit_xor]
  · simp only [if_neg hj, Nat.testBit_xor]

theorem accum_step_xor (wO v1 v2 a1 a2 row : Nat) :
    accum_step wO (v1 ^^^ v2) (a1 ^^^ a2) row
      = accum_step wO v1 a1 row ^^^ accum_step wO v2 a2 row := by
  unfold accum_step
  have hb1 := dot_bit_lt_two v1 row
  have hb2 := dot_bit_lt_two v2 row
  have he1 := shift_mod_two_pow_even wO a1
  have he2 := shift_mod_two_pow_even wO a2
  have he12 : ((a1 <<< 1) % 2 ^ wO ^^^ (a2 <<< 1) % 2 ^ wO) % 2 = 0 := by
    have := Nat.xor_mod_two_eq_one (a := (a1 <<< 1) % 2 ^ wO) (b := (a2 <<< 1) % 2 ^ wO)
    omega
  rw [dot_bit_xor, shiftLeft_one_xor, mod_two_pow_xor,
    even_lor_bit _ _ he12 (Nat.xor_lt_two_pow (n := 1) (by simpa using hb1)
      (by simpa using hb2)),
    even_lor_bit _ _ he1 hb1, even_lor_bit _ _ he2 hb2]
  exact (even_add_bit_xor _ _ _ _ he1 he2 hb1 hb2).symm

theorem accum_rows_xor (wO v1 v2 : Nat) :
    ∀ (mat : List Nat) (a1 a2 : Nat),
      accum_rows wO (v1 ^^^ v2) (a1 ^^^ a2) mat
        = accum_rows wO v1 a1 mat ^^^ accum_rows wO v2 a2 mat := by
  intro mat
  induction mat with
  | nil => intro a1 a2; rfl
  | cons row t ih =>
    intro a1 a2
    show accum_rows wO (v1 ^^^ v2) (accum_step wO (v1 ^^^ v2) (a1 ^^^ a2) row) t = _
    rw [accum_step_xor]
    exact ih (accum_step wO v1 a1 row) (accum_step wO v2 a2 row)

/-- C4: GF(2) linearity of the product in the input word — for every pair of
words and every row list, the product of the XOR of the words is the XOR of
the products. -/
theorem claim_c4_gf2_linearity (wO v1 v2 : Nat) (mat : List Nat) :
    matrix_mul wO (v1 ^^^ v2) mat
      = matrix_mul wO v1 mat ^^^ matrix_mul wO v2 mat := by
  have h := accum_rows_xor wO v1 v2 mat 0 0
  simpa [matrix_mul] using h

end BinfieldMatrix
